import Mathlib

/-!
Verification of the video-transcriptor pipeline orchestrator.

This file gives a shallow embedding, in Lean 4, of the pure decision logic
of the repository's JavaScript sources:

* the sentence-based text chunker `splitTextBySentence` and the narration
  endpoints of the HTTP server (`index.js` server portion / `unnamed/part_000`),
* the per-scene vision loop, continuity-context lookup and fallback story
  composition of `visionProcessor.js` (`processOutputFolder`),
* the audio splitter and keyframe extractor of `src/audioExtractor.js`
  (`splitAudioByScenes`, `extractKeyframes`, `extractSceneKeyframes`),
* the CSV fallback of `src/sceneDetector.js` (`parseSceneList`),
* the positional audio/keyframe merge of `processVideo` (`index.js`).

Strings are modelled as lists of characters, JavaScript numbers as exact
rationals, and the external tools (ffmpeg, scenedetect, the OpenAI calls)
as oracles passed in as parameters.
-/

/-- Text is modelled as a list of characters (JavaScript strings). -/
abbrev Str := List Char

/-- Audio byte streams are modelled as lists of bytes. -/
abbrev Bytes := List Nat

/-- The sentence-terminal punctuation class `[.!?]` of the chunking regex. -/
def isTerminalPunct (c : Char) : Bool :=
  c = '.' || c = '!' || c = '?'

/-- The trailing-closer class of the chunking regex (brackets and quotes
that may follow the terminal punctuation). -/
def isCloser (c : Char) : Bool :=
  c = ']' || c = ')' || c = '\x27' || c = '"' || c = '\x60' ||
  c = '’' || c = '”'

/-- JavaScript line terminators, the characters the regex dot does not match. -/
def isLineTerminator (c : Char) : Bool :=
  c = '\n' || c = '\r' || c = '\u2028' || c = '\u2029'

/-- Characters removed by JavaScript `String.prototype.trim` (whitespace and
line terminators). -/
def isJsWhitespace (c : Char) : Bool :=
  c = ' ' || c = '\t' || c = '\n' || c = '\r' ||
  c = '\u000b' || c = '\u000c' || c = '\u00a0' ||
  c = '\u2028' || c = '\u2029' || c = '\ufeff'

/-- JavaScript `String.prototype.trim`: drop whitespace from both ends. -/
def jsTrim (l : Str) : Str :=
  ((l.dropWhile isJsWhitespace).reverse.dropWhile isJsWhitespace).reverse

/-- One attempt of the sentence regex at the current position: alternative 1 is
a maximal run of non-terminal characters followed by at least one terminal
punctuation character and a run of closers; alternative 2 is the dot-plus
remainder match, which fails only on a line terminator. Returns the match and
the rest of the input. -/
def matchSentenceAt (l : Str) : Option (Str × Str) :=
  let np := l.takeWhile (fun c => !(isTerminalPunct c))
  let r1 := l.dropWhile (fun c => !(isTerminalPunct c))
  if np ≠ [] ∧ r1 ≠ [] then
    let pr := r1.takeWhile isTerminalPunct
    let r2 := r1.dropWhile isTerminalPunct
    let cl := r2.takeWhile isCloser
    some (np ++ pr ++ cl, r2.dropWhile isCloser)
  else
    match l with
    | [] => none
    | c :: _ =>
      if isLineTerminator c then none
      else
        some (l.takeWhile (fun c => !(isLineTerminator c)),
              l.dropWhile (fun c => !(isLineTerminator c)))

/-- Global matching loop of `text.match(re)` with the sentence regex: take the
match at the current position when one exists, otherwise skip one character.
`fuel` bounds the recursion; `fuel = l.length` always suffices. -/
def jsMatchesGo : Nat → Str → List Str
  | 0, _ => []
  | _ + 1, [] => []
  | fuel + 1, c :: rest =>
    match matchSentenceAt (c :: rest) with
    | some (m, r) => m :: jsMatchesGo fuel r
    | none => jsMatchesGo fuel rest

/-- All sentence matches of the chunking regex over the input, in order. -/
def jsMatches (l : Str) : List Str :=
  jsMatchesGo l.length l

/-- One step of the chunk-accumulation loop of `splitTextBySentence`: push the
current chunk when appending the next sentence would exceed the budget. -/
def chunkStep (maxLen : Nat) (acc : List Str × Str) (s : Str) : List Str × Str :=
  if (acc.2 ++ s).length > maxLen ∧ acc.2.length > 0 then
    (acc.1 ++ [jsTrim acc.2], s)
  else
    (acc.1, acc.2 ++ s)

/-- The sentence-boundary text chunker of the narration endpoint
(`splitTextBySentence` in the server source): split the text into sentence
matches, then greedily pack whole sentences into chunks of at most `maxLen`
characters, trimming each emitted chunk. -/
def splitTextBySentence (text : Str) (maxLen : Nat) : List Str :=
  let sentences := jsMatches text
  let acc := sentences.foldl (chunkStep maxLen) ([], [])
  if acc.2.length > 0 then acc.1 ++ [jsTrim acc.2] else acc.1

example : splitTextBySentence "A. B. C.".toList 5 =
    ["A. B.".toList, "C.".toList] := by decide

example : splitTextBySentence "no punct here".toList 5 =
    ["no punct here".toList] := by decide

/-- Every character of `takeWhile p l` satisfies `p`. -/
theorem takeWhile_mem_sat {p : Char → Bool} :
    ∀ {l : Str} {a : Char}, a ∈ l.takeWhile p → p a = true := by
  intro l
  induction l with
  | nil => intro a h; simp [List.takeWhile] at h
  | cons c t ih =>
    intro a h
    by_cases hc : p c = true
    · rw [List.takeWhile_cons, if_pos hc] at h
      rcases List.mem_cons.1 h with rfl | h
      · exact hc
      · exact ih h
    · rw [List.takeWhile_cons, if_neg hc] at h
      simp at h

/-- The head of `dropWhile p l` does not satisfy `p`. -/
theorem dropWhile_head_false {p : Char → Bool} :
    ∀ {l : Str} {c : Char} {t : Str}, l.dropWhile p = c :: t → p c = false := by
  intro l
  induction l with
  | nil => intro c t h; simp [List.dropWhile] at h
  | cons a l ih =>
    intro c t h
    by_cases ha : p a = true
    · rw [List.dropWhile_cons, if_pos ha] at h
      exact ih h
    · rw [List.dropWhile_cons, if_neg ha] at h
      cases h
      exact Bool.eq_false_iff.2 ha

/-- A successful regex attempt decomposes the input: the match is a nonempty
exact prefix and the rest is the remaining suffix. -/
theorem matchSentenceAt_decomp {l m r : Str}
    (h : matchSentenceAt l = some (m, r)) : l = m ++ r ∧ m ≠ [] := by
  unfold matchSentenceAt at h
  by_cases hc : l.takeWhile (fun c => !(isTerminalPunct c)) ≠ [] ∧
      l.dropWhile (fun c => !(isTerminalPunct c)) ≠ []
  · rw [if_pos hc] at h
    simp only [Option.some.injEq, Prod.mk.injEq] at h
    obtain ⟨hm, hr⟩ := h
    subst hm hr
    constructor
    · conv_lhs => rw [← List.takeWhile_append_dropWhile
        (p := fun c => !(isTerminalPunct c)) (l := l)]
      conv_lhs => rw [← List.takeWhile_append_dropWhile
        (p := isTerminalPunct) (l := l.dropWhile (fun c => !(isTerminalPunct c)))]
      conv_lhs => rw [← List.takeWhile_append_dropWhile
        (p := isCloser)
        (l := (l.dropWhile (fun c => !(isTerminalPunct c))).dropWhile isTerminalPunct)]
      simp [List.append_assoc]
    · intro hnil
      rcases List.append_eq_nil.1 hnil with ⟨h1, _⟩
      rcases List.append_eq_nil.1 h1 with ⟨h2, _⟩
      exact hc.1 h2
  · rw [if_neg hc] at h
    match hl : l with
    | [] => simp at h
    | c :: rest =>
      dsimp only at h
      by_cases hlt : isLineTerminator c = true
      · rw [if_pos hlt] at h; simp at h
      · rw [if_neg hlt] at h
        simp only [Option.some.injEq, Prod.mk.injEq] at h
        obtain ⟨hm, hr⟩ := h
        subst hm hr
        refine ⟨(List.takeWhile_append_dropWhile ..).symm, ?_⟩
        rw [List.takeWhile_cons, if_pos (by simp [hlt])]
        simp

/-- A failed regex attempt on a nonempty input means its head character is a
line terminator. -/
theorem matchSentenceAt_none {c : Char} {rest : Str}
    (h : matchSentenceAt (c :: rest) = none) : isLineTerminator c = true := by
  unfold matchSentenceAt at h
  by_cases hc : (c :: rest).takeWhile (fun c => !(isTerminalPunct c)) ≠ [] ∧
      (c :: rest).dropWhile (fun c => !(isTerminalPunct c)) ≠ []
  · rw [if_pos hc] at h; simp at h
  · rw [if_neg hc] at h
    dsimp only at h
    by_cases hlt : isLineTerminator c = true
    · exact hlt
    · rw [if_neg hlt] at h
      simp at h

/-- Every sentence match produced by the global matching loop is nonempty. -/
theorem jsMatchesGo_ne_nil :
    ∀ (fuel : Nat) (l : Str), ∀ m ∈ jsMatchesGo fuel l, m ≠ [] := by
  intro fuel
  induction fuel with
  | zero => intro l m hm; simp [jsMatchesGo] at hm
  | succ fuel ih =>
    intro l m hm
    cases l with
    | nil => simp [jsMatchesGo] at hm
    | cons c rest =>
      rw [jsMatchesGo] at hm
      cases hmt : matchSentenceAt (c :: rest) with
      | none => rw [hmt] at hm; exact ih rest m hm
      | some p =>
        rw [hmt] at hm
        rcases List.mem_cons.1 hm with rfl | hm
        · exact (matchSentenceAt_decomp hmt).2
        · exact ih p.2 m hm

/-- A line terminator is JavaScript whitespace. -/
theorem lineTerminator_isWhitespace {c : Char}
    (h : isLineTerminator c = true) : isJsWhitespace c = true := by
  simp only [isLineTerminator, isJsWhitespace, Bool.or_eq_true,
    decide_eq_true_eq] at h ⊢
  tauto

/-- Non-whitespace filter of one character string. -/
def keepNonWs (c : Char) : Bool := !(isJsWhitespace c)

/-- The concatenation of all sentence matches reproduces the input up to
whitespace: only line terminators are ever skipped by the matching loop. -/
theorem jsMatchesGo_join_filter :
    ∀ (fuel : Nat) (l : Str), l.length ≤ fuel →
      ((jsMatchesGo fuel l).flatten).filter keepNonWs = l.filter keepNonWs := by
  intro fuel
  induction fuel with
  | zero =>
    intro l hl
    rw [Nat.le_zero] at hl
    rw [List.length_eq_zero] at hl
    subst hl
    simp [jsMatchesGo]
  | succ fuel ih =>
    intro l hl
    cases l with
    | nil => simp [jsMatchesGo]
    | cons c rest =>
      rw [jsMatchesGo]
      cases hmt : matchSentenceAt (c :: rest) with
      | none =>
        have hlt := matchSentenceAt_none hmt
        have hws := lineTerminator_isWhitespace hlt
        have : List.filter keepNonWs (c :: rest) = List.filter keepNonWs rest := by
          rw [List.filter_cons]
          simp [keepNonWs, hws]
        rw [this]
        exact ih rest (by simpa using Nat.le_of_succ_le_succ (by simpa using hl))
      | some p =>
        obtain ⟨m, r⟩ := p
        obtain ⟨hdec, hne⟩ := matchSentenceAt_decomp hmt
        have hlen : r.length ≤ fuel := by
          have h1 : rest.length + 1 = m.length + r.length := by
            have := congrArg List.length hdec
            simpa using this
          have h2 : 1 ≤ m.length := by
            cases m with
            | nil => exact absurd rfl hne
            | cons _ _ => simp
          simp only [List.length_cons] at hl
          omega
        dsimp only
        rw [List.flatten_cons, List.filter_append, ih r hlen, hdec,
          List.filter_append]

/-- Dropping leading whitespace does not change the non-whitespace content. -/
theorem filter_dropWhile_ws :
    ∀ (l : Str), (l.dropWhile isJsWhitespace).filter keepNonWs =
      l.filter keepNonWs := by
  intro l
  induction l with
  | nil => simp
  | cons c t ih =>
    by_cases hc : isJsWhitespace c = true
    · rw [List.dropWhile_cons, if_pos hc, ih, List.filter_cons]
      simp [keepNonWs, hc]
    · rw [List.dropWhile_cons, if_neg hc]

/-- Trimming does not change the non-whitespace content of a string. -/
theorem filter_jsTrim (l : Str) :
    (jsTrim l).filter keepNonWs = l.filter keepNonWs := by
  unfold jsTrim
  rw [List.filter_reverse, filter_dropWhile_ws, List.filter_reverse,
    List.reverse_reverse, filter_dropWhile_ws]

/-- A list of nonempty lists with empty concatenation is empty. -/
theorem flatten_nil_of_ne_nil {p : List Str}
    (hne : ∀ s ∈ p, s ≠ []) (h : p.flatten = []) : p = [] := by
  cases p with
  | nil => rfl
  | cons s t =>
    rw [List.flatten_cons] at h
    rcases List.append_eq_nil.1 h with ⟨hs, _⟩
    exact absurd hs (hne s (List.mem_cons_self s t))

/-- Invariant of the chunk-accumulation fold: starting from a state described
by emitted sentence groups and a pending group, the fold ends in a state of
the same shape, and the groups laid end to end are exactly the sentences
consumed so far. -/
theorem chunk_fold_inv (maxLen : Nat) :
    ∀ (ss : List Str) (groups : List (List Str)) (pending : List Str),
      (∀ g ∈ groups, g ≠ []) → (∀ s ∈ pending, s ≠ []) → (∀ s ∈ ss, s ≠ []) →
      ∃ (groups2 : List (List Str)) (pending2 : List Str),
        (∀ g ∈ groups2, g ≠ []) ∧ (∀ s ∈ pending2, s ≠ []) ∧
        groups2.flatten ++ pending2 = groups.flatten ++ pending ++ ss ∧
        ss.foldl (chunkStep maxLen)
            (groups.map (fun g => jsTrim g.flatten), pending.flatten) =
          (groups2.map (fun g => jsTrim g.flatten), pending2.flatten) := by
  intro ss
  induction ss with
  | nil =>
    intro groups pending hg hp _
    exact ⟨groups, pending, hg, hp, by simp, by simp [List.foldl]⟩
  | cons s ss ih =>
    intro groups pending hg hp hs
    have hsne : s ≠ [] := hs s (List.mem_cons_self s ss)
    have hs' : ∀ x ∈ ss, x ≠ [] := fun x hx => hs x (List.mem_cons_of_mem s hx)
    rw [List.foldl_cons]
    by_cases hcond : (pending.flatten ++ s).length > maxLen ∧
        pending.flatten.length > 0
    · have hpne : pending ≠ [] := by
        intro hnil
        subst hnil
        simp at hcond
      have hstep : chunkStep maxLen
          (groups.map (fun g => jsTrim g.flatten), pending.flatten) s =
          ((groups ++ [pending]).map (fun g => jsTrim g.flatten),
            ([s] : List Str).flatten) := by
        unfold chunkStep
        rw [if_pos hcond]
        simp
      rw [hstep]
      obtain ⟨g2, p2, h1, h2, h3, h4⟩ := ih (groups ++ [pending]) [s]
        (by
          intro g hgm
          rcases List.mem_append.1 hgm with hgm | hgm
          · exact hg g hgm
          · rw [List.mem_singleton] at hgm; subst hgm; exact hpne)
        (by intro x hx; rw [List.mem_singleton] at hx; subst hx; exact hsne)
        hs'
      refine ⟨g2, p2, h1, h2, ?_, h4⟩
      rw [h3]
      simp [List.append_assoc]
    · have hstep : chunkStep maxLen
          (groups.map (fun g => jsTrim g.flatten), pending.flatten) s =
          (groups.map (fun g => jsTrim g.flatten),
            (pending ++ [s]).flatten) := by
        unfold chunkStep
        rw [if_neg hcond]
        simp
      rw [hstep]
      obtain ⟨g2, p2, h1, h2, h3, h4⟩ := ih groups (pending ++ [s]) hg
        (by
          intro x hx
          rcases List.mem_append.1 hx with hx | hx
          · exact hp x hx
          · rw [List.mem_singleton] at hx; subst hx; exact hsne)
        hs'
      refine ⟨g2, p2, h1, h2, ?_, h4⟩
      rw [h3]
      simp [List.append_assoc]

/-- The chunker partitions the sentence matches: there is a list of nonempty
consecutive groups of sentences, covering all sentences in order, such that
each emitted chunk is the trimmed concatenation of one group. -/
theorem splitTextBySentence_partition (text : Str) (maxLen : Nat) :
    ∃ groups : List (List Str),
      groups.flatten = jsMatches text ∧ (∀ g ∈ groups, g ≠ []) ∧
      splitTextBySentence text maxLen =
        groups.map (fun g => jsTrim g.flatten) := by
  obtain ⟨g2, p2, h1, h2, h3, h4⟩ := chunk_fold_inv maxLen (jsMatches text) [] []
    (by simp) (by simp) (jsMatchesGo_ne_nil _ _)
  simp only [splitTextBySentence]
  simp only [List.map_nil, List.flatten_nil] at h4
  rw [h4]
  simp only [List.nil_append, List.flatten_nil] at h3
  by_cases hp : p2.flatten.length > 0
  · refine ⟨g2 ++ [p2], ?_, ?_, ?_⟩
    · rw [List.flatten_append, ← h3]
      simp
    · intro g hgm
      rcases List.mem_append.1 hgm with hgm | hgm
      · exact h1 g hgm
      · rw [List.mem_singleton] at hgm
        subst hgm
        intro hnil
        subst hnil
        simp at hp
    · rw [if_pos hp]
      simp
  · have hpj : p2.flatten = [] := by
      rw [← List.length_eq_zero]
      omega
    have : p2 = [] := flatten_nil_of_ne_nil h2 hpj
    subst this
    simp only [List.flatten_nil, List.append_nil] at h3
    refine ⟨g2, h3, h1, ?_⟩
    rw [if_neg hp]

/-- Filtering the concatenation of trimmed groups equals filtering the
concatenation of the raw groups: trims only remove whitespace. -/
theorem filter_trimmed_groups :
    ∀ (G : List (List Str)),
      ((G.map (fun g => jsTrim g.flatten)).flatten).filter keepNonWs =
        (G.flatten.flatten).filter keepNonWs := by
  intro G
  induction G with
  | nil => simp
  | cons g G ih =>
    rw [List.map_cons, List.flatten_cons, List.filter_append, filter_jsTrim,
      ih, List.flatten_cons, List.flatten_append, List.filter_append]

/-- The chunker loses no content other than whitespace: the concatenation of
the chunks agrees with the input text character for character once whitespace
is ignored. -/
theorem splitTextBySentence_filter (text : Str) (maxLen : Nat) :
    ((splitTextBySentence text maxLen).flatten).filter keepNonWs =
      text.filter keepNonWs := by
  obtain ⟨groups, hflat, _, hchunks⟩ := splitTextBySentence_partition text maxLen
  rw [hchunks, filter_trimmed_groups, hflat]
  exact jsMatchesGo_join_filter text.length text le_rfl

/-- On a nonempty fuel the matching loop maps the empty input to no matches. -/
theorem jsMatchesGo_nil (fuel : Nat) : jsMatchesGo fuel [] = [] := by
  cases fuel <;> rfl

/-- A text with no terminal punctuation and no line terminators is one single
sentence match. -/
theorem jsMatches_noPunct {text : Str} (hne : text ≠ [])
    (hall : ∀ c ∈ text, isTerminalPunct c = false ∧ isLineTerminator c = false) :
    jsMatches text = [text] := by
  have htk : text.takeWhile (fun c => !(isTerminalPunct c)) = text := by
    rw [List.takeWhile_eq_self_iff]
    intro a ha
    simp [(hall a ha).1]
  have hdr : text.dropWhile (fun c => !(isTerminalPunct c)) = [] := by
    rw [List.dropWhile_eq_nil_iff]
    intro a ha
    simp [(hall a ha).1]
  have htk2 : text.takeWhile (fun c => !(isLineTerminator c)) = text := by
    rw [List.takeWhile_eq_self_iff]
    intro a ha
    simp [(hall a ha).2]
  have hdr2 : text.dropWhile (fun c => !(isLineTerminator c)) = [] := by
    rw [List.dropWhile_eq_nil_iff]
    intro a ha
    simp [(hall a ha).2]
  cases text with
  | nil => exact absurd rfl hne
  | cons c rest =>
    have hmt : matchSentenceAt (c :: rest) = some (c :: rest, []) := by
      unfold matchSentenceAt
      rw [if_neg (by rw [hdr]; simp)]
      dsimp only
      rw [if_neg (by simp [(hall c (List.mem_cons_self c rest)).2]), htk2, hdr2]
    unfold jsMatches
    rw [List.length_cons, jsMatchesGo, hmt]
    dsimp only
    rw [jsMatchesGo_nil]

/-- A text with no terminal punctuation and no line terminators comes back as
exactly one trimmed chunk, whatever the budget. -/
theorem splitTextBySentence_noPunct {text : Str} (maxLen : Nat)
    (hne : text ≠ [])
    (hall : ∀ c ∈ text, isTerminalPunct c = false ∧ isLineTerminator c = false) :
    splitTextBySentence text maxLen = [jsTrim text] := by
  simp only [splitTextBySentence, jsMatches_noPunct hne hall]
  rw [List.foldl_cons]
  have hstep : chunkStep maxLen ([], []) text = ([], text) := by
    unfold chunkStep
    rw [if_neg (by simp)]
    simp
  rw [hstep, List.foldl_nil]
  have hlen : text.length > 0 := List.length_pos.2 hne
  simp only [hlen, if_pos]
  simp

/-- Claim C3: the sentence chunker splits only at sentence boundaries — every
chunk is the trimmed concatenation of a nonempty run of consecutive sentence
matches and the runs cover all sentences in order; a text with no terminal
punctuation comes back as one final chunk; the concatenation of the chunks
reproduces the input text once whitespace is ignored; and the input
"A. B. C." with budget 5 (shorter than the whole string, longer than any
single sentence) yields more than one chunk, each ending at a sentence
boundary. -/
theorem splitTextBySentence_sentence_boundaries :
    (∀ (text : Str) (maxLen : Nat), ∃ groups : List (List Str),
        groups.flatten = jsMatches text ∧ (∀ g ∈ groups, g ≠ []) ∧
        splitTextBySentence text maxLen =
          groups.map (fun g => jsTrim g.flatten)) ∧
    (∀ (text : Str) (maxLen : Nat),
        ((splitTextBySentence text maxLen).flatten).filter keepNonWs =
          text.filter keepNonWs) ∧
    (∀ (text : Str) (maxLen : Nat), text ≠ [] →
        (∀ c ∈ text, isTerminalPunct c = false ∧ isLineTerminator c = false) →
        splitTextBySentence text maxLen = [jsTrim text]) ∧
    splitTextBySentence "A. B. C.".toList 5 =
      ["A. B.".toList, "C.".toList] ∧
    2 ≤ (splitTextBySentence "A. B. C.".toList 5).length ∧
    (∀ chunk ∈ splitTextBySentence "A. B. C.".toList 5,
        chunk.getLast? = some '.') := by
  refine ⟨splitTextBySentence_partition, splitTextBySentence_filter,
    fun text maxLen h1 h2 => splitTextBySentence_noPunct maxLen h1 h2,
    by decide, by decide, by decide⟩

/-- Instantiation of the chunker theorem at concrete inputs: the one-sentence
text "x" with budget 7 is one chunk. -/
theorem splitTextBySentence_sentence_boundaries_witness :
    splitTextBySentence "x".toList 7 = [jsTrim "x".toList] :=
  splitTextBySentence_sentence_boundaries.2.2.1 "x".toList 7
    (by decide) (by decide)

/-- A scene time range as produced by the scene detector: 1-based scene
number, start and end times and duration in seconds. -/
structure Scene where
  sceneNumber : Nat
  startTime : ℚ
  endTime : ℚ
  duration : ℚ
deriving DecidableEq

/-- JavaScript `Math.round`: floor of the number plus one half. -/
def jsRound (q : ℚ) : ℤ := ⌊q + 1 / 2⌋

/-- Rounding to millisecond precision, the `Math.round(x * 1000) / 1000`
idiom used throughout the sources. -/
def round3 (q : ℚ) : ℚ := (jsRound (q * 1000) : ℚ) / 1000

/-- The sampling timestamp of the keyframe at 0-based position `i` out of
`count` requested frames, from `extractSceneKeyframes`: the scene start plus
`duration / (count + 1) * (i + 1)`. -/
def keyframeTimestamp (scene : Scene) (count : Nat) (i : Nat) : ℚ :=
  scene.startTime + ((scene.endTime - scene.startTime) / (count + 1)) * (i + 1)

/-- One keyframe record: 1-based index, recorded (rounded) timestamp, and the
number in the frame file name `frame_<n>.jpg`. -/
structure Keyframe where
  index : Nat
  timestamp : ℚ
  frameFile : Nat
deriving DecidableEq

/-- The record pushed for a successfully extracted frame at 0-based request
position `i`. -/
def mkKeyframe (scene : Scene) (count : Nat) (i : Nat) : Keyframe :=
  ⟨i + 1, round3 (keyframeTimestamp scene count i), i + 1⟩

/-- The per-frame extraction loop: frames are requested at positions
`0 .. count-1`; a frame whose extraction fails (per the oracle `ok`) is
swallowed and pushes no record. -/
def collectKeyframes (scene : Scene) (count : Nat) (ok : Nat → Bool) :
    List Keyframe :=
  (List.range count).foldl
    (fun acc i => if ok i then acc ++ [mkKeyframe scene count i] else acc) []

/-- Insert a keyframe into a list sorted by index (the comparator
`a.index - b.index` of the final sort). -/
def insertByIndex (k : Keyframe) : List Keyframe → List Keyframe
  | [] => [k]
  | x :: xs => if k.index ≤ x.index then k :: x :: xs else x :: insertByIndex k xs

/-- The final `keyframes.sort((a, b) => a.index - b.index)` of
`extractSceneKeyframes`. -/
def sortByIndex : List Keyframe → List Keyframe
  | [] => []
  | x :: xs => insertByIndex x (sortByIndex xs)

/-- Function `extractSceneKeyframes` of `src/audioExtractor.js` (keyframe extractor
portion): collect the surviving frame records, then sort them by index. -/
def extractSceneKeyframes (scene : Scene) (count : Nat) (ok : Nat → Bool) :
    List Keyframe :=
  sortByIndex (collectKeyframes scene count ok)

/-- The collection fold appends exactly the records of the surviving request
positions, in request order. -/
theorem collectKeyframes_eq (scene : Scene) (count : Nat) (ok : Nat → Bool) :
    collectKeyframes scene count ok =
      ((List.range count).filter ok).map (mkKeyframe scene count) := by
  unfold collectKeyframes
  suffices h : ∀ (l : List Nat) (acc : List Keyframe),
      l.foldl (fun acc i => if ok i then acc ++ [mkKeyframe scene count i]
        else acc) acc = acc ++ (l.filter ok).map (mkKeyframe scene count) by
    simpa using h (List.range count) []
  intro l
  induction l with
  | nil => intro acc; simp
  | cons i l ih =>
    intro acc
    rw [List.foldl_cons, List.filter_cons]
    by_cases hi : ok i = true
    · rw [if_pos hi, ih, hi]
      simp
    · rw [if_neg hi, ih]
      simp [hi]

/-- Sorting a list already sorted by index leaves it unchanged. -/
theorem sortByIndex_sorted :
    ∀ {l : List Keyframe}, l.Pairwise (fun a b => a.index ≤ b.index) →
      sortByIndex l = l := by
  intro l
  induction l with
  | nil => intro _; rfl
  | cons x xs ih =>
    intro h
    rw [List.pairwise_cons] at h
    rw [sortByIndex, ih h.2]
    cases xs with
    | nil => rfl
    | cons y ys =>
      rw [insertByIndex, if_pos (h.1 y (List.mem_cons_self y ys))]

/-- The full behaviour of `extractSceneKeyframes`: the output records are
exactly the records of the surviving request positions, in request order. -/
theorem extractSceneKeyframes_eq (scene : Scene) (count : Nat) (ok : Nat → Bool) :
    extractSceneKeyframes scene count ok =
      ((List.range count).filter ok).map (mkKeyframe scene count) := by
  unfold extractSceneKeyframes
  rw [collectKeyframes_eq]
  apply sortByIndex_sorted
  have hr : (List.range count).Pairwise (· < ·) := List.pairwise_lt_range count
  have hf : ((List.range count).filter ok).Pairwise (· < ·) :=
    hr.sublist (List.filter_sublist _)
  rw [List.pairwise_map]
  exact hf.imp (fun h => Nat.le_of_lt (Nat.succ_lt_succ h))

/-- Claim C4, counterexample: with 2 requested keyframes of which the first
fails and the second succeeds, the produced records carry index 2 — not the
dense renumbering 1..successCount that the claim asserts. -/
theorem keyframe_indices_not_renumbered :
    (extractSceneKeyframes ⟨1, 0, 10, 10⟩ 2 (fun i => i == 1)).map
        (fun k => k.index) ≠
      List.range' 1 ((extractSceneKeyframes ⟨1, 0, 10, 10⟩ 2
        (fun i => i == 1)).length) := by
  decide

/-- Claim C4, amended: when some of the `K` requested keyframes fail, the
produced records keep the original 1-based request positions of the surviving
frames — strictly increasing with gaps at the failed positions — rather than
being densely renumbered to 1..successCount; they are contiguous from 1
exactly when the failed frames form a suffix of the request set. -/
theorem keyframe_indices_keep_positions (scene : Scene) (count : Nat)
    (ok : Nat → Bool) :
    (extractSceneKeyframes scene count ok).map (fun k => k.index) =
      ((List.range count).filter ok).map (fun i => i + 1) ∧
    ((extractSceneKeyframes scene count ok).map (fun k => k.index)).Pairwise
      (· < ·) := by
  constructor
  · rw [extractSceneKeyframes_eq, List.map_map]
    rfl
  · rw [extractSceneKeyframes_eq, List.map_map]
    have hf : ((List.range count).filter ok).Pairwise (· < ·) :=
      (List.pairwise_lt_range count).sublist (List.filter_sublist _)
    rw [List.pairwise_map]
    exact hf.imp (fun h => Nat.succ_lt_succ h)

/-- Claim C5: requested frame `i` (1-based, `1 ≤ i ≤ K`) is sampled at
`start + D/(K+1) * i`, which lies strictly inside the scene whenever the
scene duration is positive — never at the exact boundaries; and every
recorded keyframe timestamp is the sampling timestamp rounded to millisecond
precision. -/
theorem keyframe_timestamp_formula :
    (∀ (scene : Scene) (count i : Nat), 1 ≤ i → i ≤ count →
      keyframeTimestamp scene count (i - 1) =
        scene.startTime +
          ((scene.endTime - scene.startTime) / ((count : ℚ) + 1)) * (i : ℚ) ∧
      (0 < scene.endTime - scene.startTime →
        scene.startTime < keyframeTimestamp scene count (i - 1) ∧
        keyframeTimestamp scene count (i - 1) < scene.endTime)) ∧
    (∀ (scene : Scene) (count : Nat) (ok : Nat → Bool),
      ∀ k ∈ extractSceneKeyframes scene count ok,
        k.timestamp = round3 (keyframeTimestamp scene count (k.index - 1))) := by
  constructor
  · intro scene count i h1 h2
    have hcast : ((i - 1 : Nat) : ℚ) + 1 = (i : ℚ) := by
      rw [Nat.cast_sub h1]
      ring
    have hform : keyframeTimestamp scene count (i - 1) =
        scene.startTime +
          ((scene.endTime - scene.startTime) / ((count : ℚ) + 1)) * (i : ℚ) := by
      unfold keyframeTimestamp
      rw [hcast]
    refine ⟨hform, ?_⟩
    intro hD
    have hK1 : (0 : ℚ) < (count : ℚ) + 1 := by positivity
    have hi1 : (1 : ℚ) ≤ (i : ℚ) := by exact_mod_cast h1
    have hiK : (i : ℚ) < (count : ℚ) + 1 := by
      have : i < count + 1 := Nat.lt_succ_of_le h2
      exact_mod_cast this
    constructor
    · rw [hform]
      have hpos : 0 < ((scene.endTime - scene.startTime) / ((count : ℚ) + 1)) *
          (i : ℚ) := by
        apply mul_pos (div_pos hD hK1)
        linarith
      linarith
    · rw [hform]
      have hlt : ((scene.endTime - scene.startTime) / ((count : ℚ) + 1)) *
          (i : ℚ) < scene.endTime - scene.startTime := by
        rw [div_mul_eq_mul_div, div_lt_iff₀ hK1]
        have := mul_lt_mul_of_pos_left hiK hD
        linarith [mul_lt_mul_of_pos_left hiK hD]
      linarith
  · intro scene count ok k hk
    rw [extractSceneKeyframes_eq] at hk
    rcases List.mem_map.1 hk with ⟨i, _, rfl⟩
    unfold mkKeyframe
    simp

/-- Instantiation of the keyframe timestamp theorem: for a scene spanning 0
to 10 seconds with 3 requested frames, frame 2 is sampled at 5 s, strictly
inside the scene. -/
theorem keyframe_timestamp_formula_witness :
    keyframeTimestamp ⟨1, 0, 10, 10⟩ 3 1 = 5 ∧
    (0 : ℚ) < keyframeTimestamp ⟨1, 0, 10, 10⟩ 3 1 ∧
    keyframeTimestamp ⟨1, 0, 10, 10⟩ 3 1 < 10 := by
  obtain ⟨h1, h2⟩ := keyframe_timestamp_formula.1 ⟨1, 0, 10, 10⟩ 3 2
    (by decide) (by decide)
  refine ⟨?_, ?_⟩
  · rw [h1]
    norm_num
  · exact h2 (by norm_num)

/-- The audio clip file name `scene_<n>.wav` for a scene number. -/
def sceneAudioPath (n : Nat) : String :=
  "scene_" ++ toString n ++ ".wav"

/-- One entry of the audio-segments manifest `audio_segments.json`. -/
structure AudioSegment where
  sceneNumber : Nat
  startTime : ℚ
  endTime : ℚ
  duration : ℚ
  audioPath : String
deriving DecidableEq

/-- The manifest entry pushed for a successfully clipped scene; the stored
duration mirrors `scene.duration || duration` with number falsiness. -/
def mkAudioSegment (s : Scene) : AudioSegment :=
  ⟨s.sceneNumber, s.startTime, s.endTime,
    if s.duration ≠ 0 then s.duration else s.endTime - s.startTime,
    sceneAudioPath s.sceneNumber⟩

/-- Function `splitAudioByScenes` of `src/audioExtractor.js`: walk the scenes in
order; a scene with non-positive computed duration is skipped with a log; a
scene whose extraction fails (oracle `ok`) is caught and skipped; every other
scene appends a manifest entry. The returned list is also what is written to
`audio_segments.json`. -/
def splitAudioByScenes (scenes : List Scene) (ok : Scene → Bool) :
    List AudioSegment :=
  scenes.foldl
    (fun results scene =>
      if scene.endTime - scene.startTime ≤ 0 then results
      else if ok scene then results ++ [mkAudioSegment scene]
      else results) []

/-- The audio-splitting fold keeps exactly the positive-duration scenes whose
extraction succeeded, in order. -/
theorem splitAudioByScenes_eq (scenes : List Scene) (ok : Scene → Bool) :
    splitAudioByScenes scenes ok =
      (scenes.filter (fun s =>
        !(decide (s.endTime - s.startTime ≤ 0)) && ok s)).map mkAudioSegment := by
  unfold splitAudioByScenes
  suffices h : ∀ (l : List Scene) (acc : List AudioSegment),
      l.foldl (fun results scene =>
        if scene.endTime - scene.startTime ≤ 0 then results
        else if ok scene then results ++ [mkAudioSegment scene]
        else results) acc =
      acc ++ (l.filter (fun s =>
        !(decide (s.endTime - s.startTime ≤ 0)) && ok s)).map mkAudioSegment by
    simpa using h scenes []
  intro l
  induction l with
  | nil => intro acc; simp
  | cons s l ih =>
    intro acc
    rw [List.foldl_cons, List.filter_cons]
    by_cases hd : s.endTime - s.startTime ≤ 0
    · rw [if_pos hd, ih]
      simp [hd]
    · rw [if_neg hd]
      by_cases hok : ok s = true
      · rw [if_pos hok, ih]
        simp [hd, hok]
      · rw [if_neg hok, ih]
        simp [hd, hok]

/-- Claim C7: a scene whose computed duration is non-positive produces no
audio segment and is absent from the audio-segments manifest, while every
other scene is still processed — a positive-duration scene whose extraction
succeeds contributes its manifest entry no matter which scenes around it are
skipped, and skipping never aborts the batch. -/
theorem nonpositive_scene_absent_from_manifest (scenes : List Scene)
    (ok : Scene → Bool) :
    (∀ s : Scene, s.endTime - s.startTime ≤ 0 →
      mkAudioSegment s ∉ splitAudioByScenes scenes ok) ∧
    (∀ s ∈ scenes, 0 < s.endTime - s.startTime → ok s = true →
      mkAudioSegment s ∈ splitAudioByScenes scenes ok) ∧
    (∀ seg ∈ splitAudioByScenes scenes ok, ∃ s ∈ scenes,
      0 < s.endTime - s.startTime ∧ ok s = true ∧ seg = mkAudioSegment s) := by
  refine ⟨?_, ?_, ?_⟩
  · intro s hs hmem
    rw [splitAudioByScenes_eq] at hmem
    rcases List.mem_map.1 hmem with ⟨t, htmem, ht⟩
    have hts : t.startTime = s.startTime ∧ t.endTime = s.endTime := by
      have h1 := congrArg AudioSegment.startTime ht
      have h2 := congrArg AudioSegment.endTime ht
      exact ⟨h1, h2⟩
    have htfilter := List.of_mem_filter htmem
    rw [Bool.and_eq_true, Bool.not_eq_true', decide_eq_false_iff_not] at htfilter
    apply htfilter.1
    rw [hts.1, hts.2]
    exact hs
  · intro s hmem hpos hok
    rw [splitAudioByScenes_eq]
    apply List.mem_map_of_mem
    apply List.mem_filter_of_mem hmem
    rw [Bool.and_eq_true, Bool.not_eq_true', decide_eq_false_iff_not]
    exact ⟨by linarith, hok⟩
  · intro seg hmem
    rw [splitAudioByScenes_eq] at hmem
    rcases List.mem_map.1 hmem with ⟨t, htmem, ht⟩
    have htfilter := List.of_mem_filter htmem
    rw [Bool.and_eq_true, Bool.not_eq_true', decide_eq_false_iff_not] at htfilter
    exact ⟨t, List.mem_of_mem_filter htmem, by linarith [htfilter.1], htfilter.2,
      ht.symm⟩

/-- Instantiation of the manifest theorem: with one zero-length scene and one
one-second scene, the zero-length scene's segment is absent and the good
scene's segment is present. -/
theorem nonpositive_scene_absent_from_manifest_witness :
    mkAudioSegment ⟨1, 2, 2, 0⟩ ∉
      splitAudioByScenes [⟨1, 2, 2, 0⟩, ⟨2, 2, 3, 1⟩] (fun _ => true) ∧
    mkAudioSegment ⟨2, 2, 3, 1⟩ ∈
      splitAudioByScenes [⟨1, 2, 2, 0⟩, ⟨2, 2, 3, 1⟩] (fun _ => true) := by
  constructor
  · exact (nonpositive_scene_absent_from_manifest
      [⟨1, 2, 2, 0⟩, ⟨2, 2, 3, 1⟩] (fun _ => true)).1 ⟨1, 2, 2, 0⟩ (by norm_num)
  · exact (nonpositive_scene_absent_from_manifest
      [⟨1, 2, 2, 0⟩, ⟨2, 2, 3, 1⟩] (fun _ => true)).2.1 ⟨2, 2, 3, 1⟩
      (by decide) (by norm_num) rfl

/-- One entry of the keyframes manifest: a record per scene, pushed for every
scene regardless of how many frames survived. -/
structure KeyframeData where
  sceneNumber : Nat
  startTime : ℚ
  endTime : ℚ
  keyframes : List Keyframe
deriving DecidableEq

/-- Function `extractKeyframes` of `src/audioExtractor.js` (keyframe extractor
portion): one record per scene, in scene order; per-frame failures are taken
care of inside `extractSceneKeyframes`. -/
def extractKeyframes (scenes : List Scene) (count : Nat)
    (ok : Scene → Nat → Bool) : List KeyframeData :=
  scenes.map (fun s =>
    ⟨s.sceneNumber, s.startTime, s.endTime, extractSceneKeyframes s count (ok s)⟩)

/-- One merged scene entry of `result.json`: keyframe data plus the
positionally attached audio path. -/
structure SceneData where
  sceneNumber : Nat
  startTime : ℚ
  endTime : ℚ
  keyframes : List Keyframe
  audioPath : Option String
deriving DecidableEq

/-- The merge loop of `processVideo`, spelled with its running array index:
entry `idx` of the keyframe list receives `audioSegments[idx]?.audioPath`. -/
def mergeSceneDataGo (segs : List AudioSegment) :
    Nat → List KeyframeData → List SceneData
  | _, [] => []
  | idx, kf :: rest =>
    ⟨kf.sceneNumber, kf.startTime, kf.endTime, kf.keyframes,
      (segs.get? idx).map (fun a => a.audioPath)⟩ ::
      mergeSceneDataGo segs (idx + 1) rest

/-- The `keyframeData.map((kf, idx) => ...audioPath: audioSegments[idx]...)`
merge of `processVideo` in `index.js` (and of the upload route of the
server). -/
def mergeSceneData (kfd : List KeyframeData) (segs : List AudioSegment) :
    List SceneData :=
  mergeSceneDataGo segs 0 kfd

/-- Entry `i` of the merge pairs keyframe entry `i` with audio segment
`k + i` where `k` is the starting index of the loop. -/
theorem mergeSceneDataGo_get (segs : List AudioSegment) :
    ∀ (kfd : List KeyframeData) (k i : Nat),
      (mergeSceneDataGo segs k kfd).get? i = (kfd.get? i).map (fun kf =>
        ⟨kf.sceneNumber, kf.startTime, kf.endTime, kf.keyframes,
          (segs.get? (k + i)).map (fun a => a.audioPath)⟩) := by
  intro kfd
  induction kfd with
  | nil => intro k i; simp [mergeSceneDataGo]
  | cons kf rest ih =>
    intro k i
    cases i with
    | zero => simp [mergeSceneDataGo]
    | succ i =>
      rw [mergeSceneDataGo]
      simp only [List.get?_cons_succ]
      rw [ih (k + 1) i]
      have : k + 1 + i = k + (i + 1) := by omega
      rw [this]

/-- Claim C10: audio clips are attached to scene entries by array position in
the audio-segment list — entry `i` of the merge always receives
`audioSegments[i]` — and when every scene has positive duration and every
per-scene audio extraction succeeds, each merged entry's audio path is the
clip extracted for that same scene number. -/
theorem audio_attached_by_position :
    (∀ (kfd : List KeyframeData) (segs : List AudioSegment) (i : Nat),
      (mergeSceneData kfd segs).get? i = (kfd.get? i).map (fun kf =>
        ⟨kf.sceneNumber, kf.startTime, kf.endTime, kf.keyframes,
          (segs.get? i).map (fun a => a.audioPath)⟩)) ∧
    (∀ (scenes : List Scene) (count : Nat) (okA : Scene → Bool)
        (okF : Scene → Nat → Bool),
      (∀ s ∈ scenes, 0 < s.endTime - s.startTime ∧ okA s = true) →
      ∀ (i : Nat) (d : SceneData),
        (mergeSceneData (extractKeyframes scenes count okF)
          (splitAudioByScenes scenes okA)).get? i = some d →
        d.audioPath = some (sceneAudioPath d.sceneNumber) ∧
        (scenes.get? i).map (fun s => s.sceneNumber) = some d.sceneNumber) := by
  have hget : ∀ (kfd : List KeyframeData) (segs : List AudioSegment) (i : Nat),
      (mergeSceneData kfd segs).get? i = (kfd.get? i).map (fun kf =>
        ⟨kf.sceneNumber, kf.startTime, kf.endTime, kf.keyframes,
          (segs.get? i).map (fun a => a.audioPath)⟩) := by
    intro kfd segs i
    unfold mergeSceneData
    rw [mergeSceneDataGo_get segs kfd 0 i]
    simp
  refine ⟨hget, ?_⟩
  intro scenes count okA okF hall i d hd
  have hsplit : splitAudioByScenes scenes okA = scenes.map mkAudioSegment := by
    rw [splitAudioByScenes_eq]
    congr 1
    rw [List.filter_eq_self]
    intro s hs
    rw [Bool.and_eq_true, Bool.not_eq_true', decide_eq_false_iff_not]
    exact ⟨by linarith [(hall s hs).1], (hall s hs).2⟩
  rw [hget, hsplit] at hd
  unfold extractKeyframes at hd
  rw [List.get?_map, List.get?_map] at hd
  cases hs : scenes.get? i with
  | none => rw [hs] at hd; simp at hd
  | some s =>
    rw [hs] at hd
    simp only [Option.map_some'] at hd
    cases hd
    exact ⟨rfl, by simp⟩

/-- Instantiation of the positional-attachment theorem on a two-scene job in
which every extraction succeeds: entry 1 carries the clip of scene 2. -/
theorem audio_attached_by_position_witness :
    (⟨2, 2, 4, [], some (sceneAudioPath 2)⟩ : SceneData).audioPath =
      some (sceneAudioPath
        ((⟨2, 2, 4, [], some (sceneAudioPath 2)⟩ : SceneData).sceneNumber)) ∧
    (([⟨1, 0, 2, 2⟩, ⟨2, 2, 4, 2⟩] : List Scene).get? 1).map
      (fun s => s.sceneNumber) =
      some ((⟨2, 2, 4, [], some (sceneAudioPath 2)⟩ : SceneData).sceneNumber) := by
  have h1 : splitAudioByScenes [⟨1, 0, 2, 2⟩, ⟨2, 2, 4, 2⟩] (fun _ => true) =
      [mkAudioSegment ⟨1, 0, 2, 2⟩, mkAudioSegment ⟨2, 2, 4, 2⟩] := by
    unfold splitAudioByScenes
    norm_num [List.foldl_cons, List.foldl_nil]
  refine audio_attached_by_position.2 [⟨1, 0, 2, 2⟩, ⟨2, 2, 4, 2⟩] 0
    (fun _ => true) (fun _ _ => true) ?_ 1
    ⟨2, 2, 4, [], some (sceneAudioPath 2)⟩ ?_
  · intro s hs
    fin_cases hs <;> exact ⟨by norm_num, rfl⟩
  · rw [h1]
    rfl

/-- One parsed data row of the scene-detector CSV: scene number and the
start/end/length columns as numbers. A blank line is `none`. -/
structure SceneCsvRow where
  sceneNumber : Nat
  startTime : ℚ
  endTime : ℚ
  duration : ℚ
deriving DecidableEq

/-- Function `parseSceneList` of `src/sceneDetector.js`. The input is the CSV the
external detector left behind: `none` when no CSV file exists (the detector
reported no boundaries and produced no parsable scene listing), otherwise the
list of data lines after the two header lines, blank lines as `none`. With no
CSV the function synthesizes the single whole-video sentinel scene; otherwise
it maps each data row to a scene with times rounded to milliseconds. -/
def parseSceneList (csv : Option (List (Option SceneCsvRow))) : List Scene :=
  match csv with
  | none => [{ sceneNumber := 1, startTime := 0, endTime := 0, duration := 0 }]
  | some dataLines =>
    (dataLines.filterMap id).map (fun r =>
      { sceneNumber := r.sceneNumber,
        startTime := round3 r.startTime,
        endTime := round3 r.endTime,
        duration := round3 r.duration })

/-- Claim C8: when the external detector reports zero boundaries (no
parsable scene listing exists), parsing returns exactly one synthetic scene,
numbered 1, with the whole-video sentinel times start 0 and end 0 — and this
is the only input that produces the sentinel row count of one scene with
zero times out of nothing. -/
theorem zero_boundaries_single_sentinel_scene :
    parseSceneList none =
      [{ sceneNumber := 1, startTime := 0, endTime := 0, duration := 0 }] ∧
    (parseSceneList none).length = 1 ∧
    (∀ s ∈ parseSceneList none,
      s.sceneNumber = 1 ∧ s.startTime = 0 ∧ s.endTime = 0) ∧
    (∀ rows, parseSceneList (some rows) =
      (rows.filterMap id).map (fun r =>
        { sceneNumber := r.sceneNumber,
          startTime := round3 r.startTime,
          endTime := round3 r.endTime,
          duration := round3 r.duration })) := by
  refine ⟨rfl, rfl, ?_, fun rows => rfl⟩
  intro s hs
  unfold parseSceneList at hs
  rw [List.mem_singleton] at hs
  subst hs
  exact ⟨rfl, rfl, rfl⟩

/-- The outcome of processing one scene folder in `processOutputFolder` of
`visionProcessor.js`: the folder contains no images and `processScene`
returns null (nothing is pushed); the call throws and an error entry is
pushed; or the call succeeds with an optional `storyPart` (absent when the
response was unparsable raw text or the parsed JSON lacked the field). -/
inductive SceneOutcome where
  | noImages : SceneOutcome
  | failed (msg : Str) : SceneOutcome
  | ok (storyPart : Option Str) : SceneOutcome
deriving DecidableEq

/-- One entry of the `results` array persisted as `vision_results.json`. -/
structure VisionEntry where
  sceneNumber : Nat
  storyPart : Option Str
  error : Option Str
deriving DecidableEq

/-- Whether a scene outcome is the skipped no-images case. -/
def isNoImages : SceneOutcome → Bool
  | SceneOutcome.noImages => true
  | _ => false

/-- The `results` array built by the scene loop of `processOutputFolder`,
processing scenes numbered from `n` upward in ascending order: a no-images
scene pushes nothing, a thrown error pushes an error entry, and a successful
scene pushes its (optional) story part. -/
def buildResults : Nat → List SceneOutcome → List VisionEntry
  | _, [] => []
  | n, SceneOutcome.noImages :: rest => buildResults (n + 1) rest
  | n, SceneOutcome.failed e :: rest =>
    ⟨n, none, some e⟩ :: buildResults (n + 1) rest
  | n, SceneOutcome.ok sp :: rest =>
    ⟨n, sp, none⟩ :: buildResults (n + 1) rest

/-- The `results` array after processing all scenes of a job whose scene
folders are numbered 1 .. N. -/
def visionResults (os : List SceneOutcome) : List VisionEntry :=
  buildResults 1 os

/-- JavaScript truthiness of an optional string: present and nonempty. -/
def jsTruthyStr : Option Str → Bool
  | some s => !s.isEmpty
  | none => false

/-- The `previousSceneContext` lookup of the scene loop:
`results[sceneNumber - 2]?.storyPart`, used only when truthy. -/
def prevContext (results : List VisionEntry) (n : Nat) : Option Str :=
  if 1 < n then
    match results.get? (n - 2) with
    | some e => if jsTruthyStr e.storyPart then e.storyPart else none
    | none => none
  else none

/-- The continuity context supplied to scene `n`: the positional lookup is
made against the results accumulated from scenes 1 .. n-1. -/
def sceneContext (os : List SceneOutcome) (n : Nat) : Option Str :=
  prevContext (buildResults 1 (os.take (n - 1))) n

/-- Modelled from the spec wording, for comparison: scene `n` receives scene
`n-1`'s nonempty fragment when scene `n-1` produced one — but, as the code
actually behaves, only when no earlier scene was skipped for having no
images. -/
def specContext (os : List SceneOutcome) (n : Nat) : Option Str :=
  if 1 < n ∧ SceneOutcome.noImages ∉ os.take (n - 1) then
    match os.get? (n - 2) with
    | some (SceneOutcome.ok (some s)) => if s.isEmpty then none else some s
    | _ => none
  else none

/-- The number of pushed entries plus the number of skipped no-images scenes
accounts for every scene. -/
theorem buildResults_length :
    ∀ (os : List SceneOutcome) (k : Nat),
      (buildResults k os).length + (os.filter isNoImages).length =
        os.length := by
  intro os
  induction os with
  | nil => intro k; rfl
  | cons o rest ih =>
    intro k
    cases o with
    | noImages =>
      rw [buildResults, List.filter_cons]
      simp only [isNoImages, if_pos]
      have := ih (k + 1)
      simp only [List.length_cons]
      omega
    | failed e =>
      rw [buildResults, List.filter_cons]
      simp only [isNoImages]
      have := ih (k + 1)
      simp only [List.length_cons]
      simp only [Bool.false_eq_true, if_false]
      omega
    | ok sp =>
      rw [buildResults, List.filter_cons]
      simp only [isNoImages]
      have := ih (k + 1)
      simp only [List.length_cons]
      simp only [Bool.false_eq_true, if_false]
      omega

/-- The entry pushed for an outcome processed as scene `n` (meaningful for
outcomes that push, i.e. not the no-images case). -/
def entryFor (n : Nat) : SceneOutcome → VisionEntry
  | SceneOutcome.noImages => ⟨n, none, none⟩
  | SceneOutcome.failed e => ⟨n, none, some e⟩
  | SceneOutcome.ok sp => ⟨n, sp, none⟩

/-- With no skipped scene, the results array is a positional image of the
outcome list: entry `i` is the entry of scene `k + i`. -/
theorem buildResults_get_of_no_skip :
    ∀ (os : List SceneOutcome) (k i : Nat),
      (∀ o ∈ os, isNoImages o = false) →
      (buildResults k os).get? i = (os.get? i).map (entryFor (k + i)) := by
  intro os
  induction os with
  | nil => intro k i _; simp [buildResults]
  | cons o rest ih =>
    intro k i hall
    have ho : isNoImages o = false := hall o (List.mem_cons_self o rest)
    have hrest : ∀ o ∈ rest, isNoImages o = false :=
      fun o ho => hall o (List.mem_cons_of_mem _ ho)
    cases o with
    | noImages => simp [isNoImages] at ho
    | failed e =>
      rw [buildResults]
      cases i with
      | zero => simp [entryFor]
      | succ i =>
        simp only [List.get?_cons_succ]
        rw [ih (k + 1) i hrest]
        have : k + 1 + i = k + (i + 1) := by omega
        rw [this]
    | ok sp =>
      rw [buildResults]
      cases i with
      | zero => simp [entryFor]
      | succ i =>
        simp only [List.get?_cons_succ]
        rw [ih (k + 1) i hrest]
        have : k + 1 + i = k + (i + 1) := by omega
        rw [this]

/-- Claim C1, amended: the continuity context supplied to scene `n` agrees
with the spec-side description only in jobs where no earlier scene was
skipped for lack of images — the positional lookup `results[n - 2]` returns
scene `n-1`'s entry exactly when scenes 1 .. n-1 all pushed an entry, and
returns nothing at all otherwise; in particular context is never taken from
more than one scene back. -/
theorem continuity_context_matches_spec :
    ∀ (os : List SceneOutcome) (n : Nat),
      sceneContext os n = specContext os n := by
  intro os n
  unfold sceneContext specContext prevContext
  by_cases h1 : 1 < n
  · by_cases h2 : SceneOutcome.noImages ∈ os.take (n - 1)
    · rw [if_pos h1, if_neg (by tauto)]
      have hb := buildResults_length (os.take (n - 1)) 1
      have hfl : 1 ≤ ((os.take (n - 1)).filter isNoImages).length := by
        have hmem : SceneOutcome.noImages ∈ (os.take (n - 1)).filter isNoImages :=
          List.mem_filter_of_mem h2 (by rfl)
        have := List.ne_nil_of_mem hmem
        have := List.length_pos.2 this
        omega
      have htl : (os.take (n - 1)).length ≤ n - 1 := List.length_take_le _ _
      have hlen : (buildResults 1 (os.take (n - 1))).length ≤ n - 2 := by
        omega
      rw [List.get?_eq_none.2 hlen]
    · rw [if_pos h1, if_pos ⟨h1, h2⟩]
      have hall : ∀ o ∈ os.take (n - 1), isNoImages o = false := by
        intro o ho
        cases o with
        | noImages => exact absurd ho h2
        | failed e => rfl
        | ok sp => rfl
      rw [buildResults_get_of_no_skip (os.take (n - 1)) 1 (n - 2) hall]
      have h12 : 1 + (n - 2) = n - 1 := by omega
      rw [h12]
      have htake : (os.take (n - 1)).get? (n - 2) = os.get? (n - 2) :=
        List.get?_take (by omega)
      rw [htake]
      cases hos : os.get? (n - 2) with
      | none => rfl
      | some o =>
        have homem : o ∈ os.take (n - 1) := by
          rw [← htake] at hos
          exact List.get?_mem hos
        cases o with
        | noImages => exact absurd homem h2
        | failed e => simp [entryFor, jsTruthyStr]
        | ok sp =>
          cases sp with
          | none => simp [entryFor, jsTruthyStr]
          | some s =>
            by_cases hs : s.isEmpty = true
            · simp [entryFor, jsTruthyStr, hs]
            · simp [entryFor, jsTruthyStr, hs]
  · rw [if_neg h1, if_neg (by tauto)]

/-- Claim C1, counterexample: scene 1 is skipped for lack of images, scene 2
succeeds with a nonempty fragment, yet scene 3 receives no continuity
context — the positional lookup misses although scene 2 (= N-1) produced a
fragment without error, refuting the claimed if-and-only-if. -/
theorem continuity_context_lost_after_skipped_scene :
    sceneContext [SceneOutcome.noImages, SceneOutcome.ok (some ['a']),
        SceneOutcome.ok (some ['b'])] 3 = none ∧
    [SceneOutcome.noImages, SceneOutcome.ok (some ['a']),
        SceneOutcome.ok (some ['b'])].get? 1 =
      some (SceneOutcome.ok (some ['a'])) ∧
    (['a'] : Str) ≠ [] := by
  decide

/-- The fallback composition of `processOutputFolder`: filter the results on
a truthy `storyPart`, keep the parts, and join them with blank lines. -/
def fallbackStory (results : List VisionEntry) : Str :=
  List.intercalate ['\n', '\n']
    ((results.filter (fun r => jsTruthyStr r.storyPart)).map
      (fun r => r.storyPart.getD []))

/-- The fallback narrative persisted to `story.txt` when the whole-story
composition call fails, for a job with the given scene outcomes. -/
def visionFallbackStory (os : List SceneOutcome) : Str :=
  fallbackStory (buildResults 1 os)

/-- The nonempty story fragments of the scenes that produced one, in scene
order (spec-side description of the fallback content). -/
def storyFragments (os : List SceneOutcome) : List Str :=
  os.filterMap (fun o => match o with
    | SceneOutcome.ok (some s) => if s.isEmpty then none else some s
    | _ => none)

/-- The truthy story parts of the pushed entries are the nonempty fragments
of the outcomes, independent of the starting scene number. -/
theorem buildResults_storyParts :
    ∀ (os : List SceneOutcome) (k : Nat),
      ((buildResults k os).filter (fun r => jsTruthyStr r.storyPart)).map
        (fun r => r.storyPart.getD []) = storyFragments os := by
  intro os
  induction os with
  | nil => intro k; rfl
  | cons o rest ih =>
    intro k
    cases o with
    | noImages =>
      rw [buildResults]
      show _ = storyFragments (SceneOutcome.noImages :: rest)
      unfold storyFragments
      rw [List.filterMap_cons]
      exact ih (k + 1)
    | failed e =>
      rw [buildResults]
      unfold storyFragments
      rw [List.filterMap_cons, List.filter_cons]
      simp only [jsTruthyStr, Bool.false_eq_true, if_false]
      exact ih (k + 1)
    | ok sp =>
      rw [buildResults]
      unfold storyFragments
      rw [List.filterMap_cons, List.filter_cons]
      cases sp with
      | none =>
        simp only [jsTruthyStr, Bool.false_eq_true, if_false]
        exact ih (k + 1)
      | some s =>
        by_cases hs : s.isEmpty = true
        · simp only [jsTruthyStr, hs, Bool.not_true, Bool.false_eq_true,
            if_false]
          exact ih (k + 1)
        · have hs' : s.isEmpty = false := by
            cases hse : s.isEmpty
            · rfl
            · exact absurd hse hs
          have ht : jsTruthyStr (some s) = true := by
            simp [jsTruthyStr, hs']
          rw [if_pos ht]
          dsimp only
          rw [if_neg hs]
          dsimp only
          rw [List.map_cons]
          simp only [Option.getD_some]
          rw [ih (k + 1)]
          rfl

/-- Joining a list of strings whose first element is nonempty gives a
nonempty string. -/
theorem intercalate_ne_nil_of_head (sep x : Str) (xs : List Str)
    (hx : x ≠ []) : List.intercalate sep (x :: xs) ≠ [] := by
  cases xs with
  | nil =>
    simp [List.intercalate, List.intersperse, hx]
  | cons y ys =>
    rw [List.intercalate]
    intro h
    rw [List.intersperse_cons_cons, List.flatten_cons] at h
    rcases List.append_eq_nil.1 h with ⟨h1, _⟩
    exact hx h1

/-- Every story fragment is nonempty. -/
theorem storyFragments_mem_ne_nil {l : List SceneOutcome} {s : Str}
    (h : s ∈ storyFragments l) : s ≠ [] := by
  unfold storyFragments at h
  rcases List.mem_filterMap.1 h with ⟨o, _, ho⟩
  cases o with
  | noImages => simp at ho
  | failed e => simp at ho
  | ok sp =>
    cases sp with
    | none => simp at ho
    | some t =>
      dsimp only at ho
      by_cases ht : t.isEmpty = true
      · rw [if_pos ht] at ho
        simp at ho
      · rw [if_neg ht] at ho
        cases ho
        intro hnil
        subst hnil
        simp at ht

/-- Claim C6, amended: the persisted fallback narrative equals the nonempty
`storyPart` fragments of exactly the scenes that produced one, joined with
blank-line paragraph breaks in scene-number order; it is non-empty whenever
at least one scene produced a nonempty fragment (which is weaker than "at
least one scene was processed successfully": a successfully processed scene
whose response carried no parsable `storyPart` contributes nothing). -/
theorem fallback_story_joins_fragments :
    (∀ os : List SceneOutcome, visionFallbackStory os =
      List.intercalate ['\n', '\n'] (storyFragments os)) ∧
    (∀ os : List SceneOutcome,
      (∃ o ∈ os, ∃ s : Str, o = SceneOutcome.ok (some s) ∧ s ≠ []) →
      visionFallbackStory os ≠ []) := by
  have hjoin : ∀ os : List SceneOutcome, visionFallbackStory os =
      List.intercalate ['\n', '\n'] (storyFragments os) := by
    intro os
    unfold visionFallbackStory fallbackStory
    rw [buildResults_storyParts os 1]
  refine ⟨hjoin, ?_⟩
  intro os ⟨o, homem, s, heq, hs⟩
  subst heq
  have hmem : s ∈ storyFragments os := by
    unfold storyFragments
    apply List.mem_filterMap.2
    refine ⟨SceneOutcome.ok (some s), homem, ?_⟩
    dsimp only
    rw [if_neg (by simpa using hs)]
  rw [hjoin]
  cases hsf : storyFragments os with
  | nil => rw [hsf] at hmem; simp at hmem
  | cons x xs =>
    apply intercalate_ne_nil_of_head
    apply storyFragments_mem_ne_nil (l := os)
    rw [hsf]
    exact List.mem_cons_self x xs

/-- Claim C6, counterexample: a job whose single scene is processed
successfully (no error entry) but whose response yields no `storyPart` — the
unparsable-raw-text fallback of `processScene` — leaves the fallback
narrative empty, refuting non-emptiness under "at least one scene processed
successfully". -/
theorem fallback_story_empty_after_successful_scene :
    visionFallbackStory [SceneOutcome.ok none] = [] ∧
    visionResults [SceneOutcome.ok none] =
      [{ sceneNumber := 1, storyPart := none, error := none }] := by
  decide

/-- Instantiation of the fallback-story theorem: one scene with fragment
"hi" makes the fallback narrative non-empty. -/
theorem fallback_story_joins_fragments_witness :
    visionFallbackStory [SceneOutcome.ok (some ['h', 'i'])] ≠ [] :=
  fallback_story_joins_fragments.2 [SceneOutcome.ok (some ['h', 'i'])]
    ⟨SceneOutcome.ok (some ['h', 'i']), by decide, ['h', 'i'], rfl, by decide⟩

/-- Stable insertion into a list sorted by scene number, modelling the
comparator `(a, b) => a.sceneNumber - b.sceneNumber`. -/
def insertBySceneNumber (e : VisionEntry) : List VisionEntry → List VisionEntry
  | [] => [e]
  | x :: xs =>
    if e.sceneNumber ≤ x.sceneNumber then e :: x :: xs
    else x :: insertBySceneNumber e xs

/-- The `results.sort((a, b) => a.sceneNumber - b.sceneNumber)` of the
narration endpoint. -/
def sortBySceneNumber : List VisionEntry → List VisionEntry
  | [] => []
  | x :: xs => insertBySceneNumber x (sortBySceneNumber xs)

/-- The story parts collected by the chunk-path narration endpoint: filter
on a truthy `storyPart`, sort by scene number, keep the parts. -/
def narrationStoryParts (results : List VisionEntry) : List Str :=
  (sortBySceneNumber (results.filter (fun r => jsTruthyStr r.storyPart))).map
    (fun r => r.storyPart.getD [])

/-- The paragraph separator inserted between story parts. -/
def newline2 : Str := ['\n', '\n']

/-- The generation step of `GET /api/job/:folderId/narration`: join the story
parts into the full story, chunk it with a 2000-character budget, then run
text-to-speech inside `for (let i = 0; i < 1; i++)` — over the FIRST chunk
only — and concatenate the buffers. Returns `none` for the 404 when no story
part exists, otherwise the narration bytes and the number of synthesis
calls. -/
def chunkNarrationCompute (results : List VisionEntry) (tts : Str → Bytes) :
    Option (Bytes × Nat) :=
  let parts := narrationStoryParts results
  if parts.isEmpty then none
  else
    let fullStory := List.intercalate newline2 parts
    let textChunks := splitTextBySentence fullStory 2000
    let audioBuffers := (textChunks.take 1).map tts
    some (audioBuffers.flatten, audioBuffers.length)

/-- A 2000-character one-sentence story part. -/
def bigPartA : Str := List.replicate 1999 'a' ++ ['.']

/-- A 2001-character one-sentence story part. -/
def bigPartB : Str := List.replicate 2000 'b' ++ ['.']

/-- A two-scene results file whose joined story exceeds one chunk. -/
def demoResultsLong : List VisionEntry :=
  [⟨1, some bigPartA, none⟩, ⟨2, some bigPartB, none⟩]

/-- The joined story of `demoResultsLong`. -/
def demoStoryLong : Str := List.intercalate newline2 [bigPartA, bigPartB]


/-- Taking while a predicate holds passes over a block that satisfies it. -/
theorem takeWhile_append_all {p : Char → Bool} :
    ∀ {X r : Str}, (∀ c ∈ X, p c = true) →
      (X ++ r).takeWhile p = X ++ r.takeWhile p := by
  intro X
  induction X with
  | nil => intro r _; rfl
  | cons c t ih =>
    intro r h
    rw [List.cons_append, List.takeWhile_cons,
      if_pos (h c (List.mem_cons_self c t)), ih (fun d hd =>
        h d (List.mem_cons_of_mem c hd)), List.cons_append]

/-- Dropping while a predicate holds drops a whole block that satisfies it. -/
theorem dropWhile_append_all {p : Char → Bool} :
    ∀ {X r : Str}, (∀ c ∈ X, p c = true) →
      (X ++ r).dropWhile p = r.dropWhile p := by
  intro X
  induction X with
  | nil => intro r _; rfl
  | cons c t ih =>
    intro r h
    rw [List.cons_append, List.dropWhile_cons,
      if_pos (h c (List.mem_cons_self c t)), ih (fun d hd =>
        h d (List.mem_cons_of_mem c hd))]

/-- Dropping while a predicate holds keeps a list none of whose characters satisfy the
predicate. -/
theorem dropWhile_eq_self_all {p : Char → Bool} :
    ∀ {l : Str}, (∀ c ∈ l, p c = false) → l.dropWhile p = l := by
  intro l h
  cases l with
  | nil => rfl
  | cons c t =>
    rw [List.dropWhile_cons, if_neg (by
      rw [h c (List.mem_cons_self c t)]
      exact Bool.false_ne_true)]

/-- Trimming a string with no whitespace at all leaves it unchanged. -/
theorem jsTrim_eq_self {l : Str} (h : ∀ c ∈ l, isJsWhitespace c = false) :
    jsTrim l = l := by
  unfold jsTrim
  rw [dropWhile_eq_self_all h, dropWhile_eq_self_all (by
    intro c hc
    exact h c (List.mem_reverse.1 hc)), List.reverse_reverse]

/-- The matching loop is insensitive to the exact fuel once it covers the
input length. -/
theorem jsMatchesGo_fuel_irrel :
    ∀ (f1 f2 : Nat) (l : Str), l.length ≤ f1 → l.length ≤ f2 →
      jsMatchesGo f1 l = jsMatchesGo f2 l := by
  intro f1
  induction f1 with
  | zero =>
    intro f2 l h1 _
    rw [Nat.le_zero] at h1
    rw [List.length_eq_zero] at h1
    subst h1
    rw [jsMatchesGo_nil, jsMatchesGo_nil]
  | succ f1 ih =>
    intro f2 l h1 h2
    cases l with
    | nil => rw [jsMatchesGo_nil, jsMatchesGo_nil]
    | cons c rest =>
      cases f2 with
      | zero => simp at h2
      | succ f2 =>
        rw [jsMatchesGo, jsMatchesGo]
        cases hmt : matchSentenceAt (c :: rest) with
        | none =>
          dsimp only
          exact ih f2 rest
            (by simpa using Nat.le_of_succ_le_succ (by simpa using h1))
            (by simpa using Nat.le_of_succ_le_succ (by simpa using h2))
        | some p =>
          obtain ⟨m, r⟩ := p
          obtain ⟨hdec, hne⟩ := matchSentenceAt_decomp hmt
          dsimp only
          have hmlen : 1 ≤ m.length := by
            cases m with
            | nil => exact absurd rfl hne
            | cons _ _ => simp
          have hrlen : r.length + m.length = rest.length + 1 := by
            have := congrArg List.length hdec
            simp only [List.length_cons, List.length_append] at this
            omega
          simp only [List.length_cons] at h1 h2
          rw [ih f2 r (by omega) (by omega)]

/-- One step of the global match: a successful attempt contributes its match
and the loop continues on the rest. -/
theorem jsMatches_step {l m r : Str} (hm : matchSentenceAt l = some (m, r)) :
    jsMatches l = m :: jsMatches r := by
  obtain ⟨hdec, hne⟩ := matchSentenceAt_decomp hm
  cases l with
  | nil => simp [matchSentenceAt] at hm
  | cons c rest =>
    unfold jsMatches
    rw [List.length_cons, jsMatchesGo, hm]
    dsimp only
    have hmlen : 1 ≤ m.length := by
      cases m with
      | nil => exact absurd rfl hne
      | cons _ _ => simp
    have hrlen : r.length + m.length = rest.length + 1 := by
      have := congrArg List.length hdec
      simp only [List.length_cons, List.length_append] at this
      omega
    rw [jsMatchesGo_fuel_irrel rest.length r.length r (by omega) le_rfl]

/-- Taking while a predicate holds stops at a head character that fails it. -/
theorem takeWhile_cons_neg {p : Char → Bool} {c : Char} {t : Str}
    (h : p c = false) : (c :: t).takeWhile p = [] := by
  rw [List.takeWhile_cons, if_neg (by rw [h]; exact Bool.false_ne_true)]

/-- Dropping while a predicate holds keeps a list whose head fails it. -/
theorem dropWhile_cons_neg {p : Char → Bool} {c : Char} {t : Str}
    (h : p c = false) : (c :: t).dropWhile p = c :: t := by
  rw [List.dropWhile_cons, if_neg (by rw [h]; exact Bool.false_ne_true)]

/-- A regex attempt on a non-punctuation block followed by one full stop and
a rest that does not open with punctuation or a closer matches the block
with its full stop. -/
theorem matchSentenceAt_block_dot {X r : Str} (hX : X ≠ [])
    (hXp : ∀ c ∈ X, isTerminalPunct c = false)
    (hr : ∀ hd t, r = hd :: t → isTerminalPunct hd = false ∧
      isCloser hd = false) :
    matchSentenceAt (X ++ '.' :: r) = some (X ++ ['.'], r) := by
  have hXb : ∀ c ∈ X, (fun c => !(isTerminalPunct c)) c = true := by
    intro c hc
    simp [hXp c hc]
  have hnp : (X ++ '.' :: r).takeWhile (fun c => !(isTerminalPunct c)) = X := by
    rw [takeWhile_append_all hXb, takeWhile_cons_neg (by decide),
      List.append_nil]
  have hdr : (X ++ '.' :: r).dropWhile (fun c => !(isTerminalPunct c)) =
      '.' :: r := by
    rw [dropWhile_append_all hXb, dropWhile_cons_neg (by decide)]
  have hprP : ('.' :: r).takeWhile isTerminalPunct = '.' :: r.takeWhile isTerminalPunct := by
    rw [List.takeWhile_cons, if_pos (by decide)]
  have hrP : r.takeWhile isTerminalPunct = [] := by
    cases r with
    | nil => rfl
    | cons hd t => exact takeWhile_cons_neg (hr hd t rfl).1
  have hrD : r.dropWhile isTerminalPunct = r := by
    cases r with
    | nil => rfl
    | cons hd t => exact dropWhile_cons_neg (hr hd t rfl).1
  have hrC : r.takeWhile isCloser = [] := by
    cases r with
    | nil => rfl
    | cons hd t => exact takeWhile_cons_neg (hr hd t rfl).2
  have hrCD : r.dropWhile isCloser = r := by
    cases r with
    | nil => rfl
    | cons hd t => exact dropWhile_cons_neg (hr hd t rfl).2
  unfold matchSentenceAt
  dsimp only
  rw [hnp, hdr]
  rw [if_pos ⟨hX, by simp⟩]
  rw [List.dropWhile_cons, if_pos (by decide), hrD, hrC, hrCD, hprP, hrP]
  simp

/-- No character of the long story parts is whitespace. -/
theorem bigPart_no_ws :
    (∀ c ∈ bigPartA, isJsWhitespace c = false) ∧
    (∀ c ∈ bigPartB, isJsWhitespace c = false) := by
  constructor
  · intro c hc
    rcases List.mem_append.1 hc with hc | hc
    · have := List.eq_of_mem_replicate hc
      subst this
      decide
    · rw [List.mem_singleton] at hc
      subst hc
      decide
  · intro c hc
    rcases List.mem_append.1 hc with hc | hc
    · have := List.eq_of_mem_replicate hc
      subst this
      decide
    · rw [List.mem_singleton] at hc
      subst hc
      decide

/-- Joining exactly two strings inserts one separator. -/
theorem intercalate_pair (sep x y : Str) :
    List.intercalate sep [x, y] = x ++ (sep ++ y) := by
  simp [List.intercalate, List.intersperse]

/-- The joined demo story splits into its two sentences. -/
theorem demoStory_sentences :
    jsMatches demoStoryLong = [bigPartA, '\n' :: '\n' :: bigPartB] := by
  have hstory : demoStoryLong =
      List.replicate 1999 'a' ++ '.' :: ('\n' :: '\n' :: bigPartB) := by
    unfold demoStoryLong
    rw [intercalate_pair]
    unfold bigPartA
    rw [List.append_assoc]
    rfl
  have h1 : matchSentenceAt demoStoryLong =
      some (bigPartA, '\n' :: '\n' :: bigPartB) := by
    rw [hstory]
    exact matchSentenceAt_block_dot
      (by
        intro hnil
        have hlen := congrArg List.length hnil
        rw [List.length_replicate, List.length_nil] at hlen
        exact absurd hlen (by decide))
      (by
        intro c hc
        have := List.eq_of_mem_replicate hc
        subst this
        decide)
      (by
        intro hd t heq
        cases heq
        decide)
  have h2 : matchSentenceAt ('\n' :: '\n' :: bigPartB) =
      some ('\n' :: '\n' :: bigPartB, []) := by
    exact matchSentenceAt_block_dot
      (X := '\n' :: '\n' :: List.replicate 2000 'b') (r := [])
      (List.cons_ne_nil _ _)
      (by
        intro c hc
        rcases List.mem_cons.1 hc with rfl | hc
        · decide
        rcases List.mem_cons.1 hc with rfl | hc
        · decide
        have := List.eq_of_mem_replicate hc
        subst this
        decide)
      (by intro hd t heq; cases heq)
  rw [jsMatches_step h1, jsMatches_step h2]
  rfl

/-- The demo story chunks into exactly the two trimmed sentences. -/
theorem demoStory_chunks :
    splitTextBySentence demoStoryLong 2000 = [bigPartA, bigPartB] := by
  have hlenA : bigPartA.length = 2000 := by
    unfold bigPartA
    rw [List.length_append, List.length_replicate]
    rfl
  have hlenS2 : ('\n' :: '\n' :: bigPartB).length = 2003 := by
    unfold bigPartB
    rw [List.length_cons, List.length_cons, List.length_append,
      List.length_replicate]
    rfl
  have htrimA : jsTrim bigPartA = bigPartA := jsTrim_eq_self bigPart_no_ws.1
  have htrimS2 : jsTrim ('\n' :: '\n' :: bigPartB) = bigPartB := by
    unfold jsTrim
    rw [List.dropWhile_cons, if_pos (by decide), List.dropWhile_cons,
      if_pos (by decide), dropWhile_eq_self_all bigPart_no_ws.2,
      dropWhile_eq_self_all (by
        intro c hc
        exact bigPart_no_ws.2 c (List.mem_reverse.1 hc)),
      List.reverse_reverse]
  simp only [splitTextBySentence, demoStory_sentences]
  rw [List.foldl_cons]
  have hstep1 : chunkStep 2000 ([], []) bigPartA = ([], bigPartA) := by
    unfold chunkStep
    rw [if_neg (by simp)]
    rw [List.nil_append]
  rw [hstep1, List.foldl_cons]
  have hstep2 : chunkStep 2000 ([], bigPartA) ('\n' :: '\n' :: bigPartB) =
      ([jsTrim bigPartA], '\n' :: '\n' :: bigPartB) := by
    unfold chunkStep
    rw [if_pos (by
      constructor
      · show (bigPartA ++ ('\n' :: '\n' :: bigPartB)).length > 2000
        rw [List.length_append, hlenA, hlenS2]
        decide
      · show bigPartA.length > 0
        rw [hlenA]
        decide)]
    rw [List.nil_append]
  rw [hstep2, List.foldl_nil]
  rw [if_pos (by
    show ('\n' :: '\n' :: bigPartB).length > 0
    rw [hlenS2]
    decide)]
  rw [htrimA, htrimS2]
  rfl

/-- Length of the first demo part. -/
theorem bigPartA_length : bigPartA.length = 2000 := by
  unfold bigPartA
  rw [List.length_append, List.length_replicate]
  rfl

/-- Length of the second demo part. -/
theorem bigPartB_length : bigPartB.length = 2001 := by
  unfold bigPartB
  rw [List.length_append, List.length_replicate]
  rfl

/-- The sorted, truthy story parts of the demo results. -/
theorem demo_narrationStoryParts :
    narrationStoryParts demoResultsLong = [bigPartA, bigPartB] := by
  have hA_ne : bigPartA ≠ [] := by
    intro h
    have hl := congrArg List.length h
    rw [bigPartA_length, List.length_nil] at hl
    exact absurd hl (by decide)
  have hB_ne : bigPartB ≠ [] := by
    intro h
    have hl := congrArg List.length h
    rw [bigPartB_length, List.length_nil] at hl
    exact absurd hl (by decide)
  have ht1 : jsTruthyStr (some bigPartA) = true := by
    unfold jsTruthyStr
    cases h : bigPartA.isEmpty with
    | false => rfl
    | true => exact absurd (List.isEmpty_iff.1 h) hA_ne
  have ht2 : jsTruthyStr (some bigPartB) = true := by
    unfold jsTruthyStr
    cases h : bigPartB.isEmpty with
    | false => rfl
    | true => exact absurd (List.isEmpty_iff.1 h) hB_ne
  unfold narrationStoryParts demoResultsLong
  simp only [List.filter_cons, List.filter_nil]
  simp only [ht1, ht2, if_true]
  simp only [sortBySceneNumber, insertBySceneNumber]
  norm_num

/-- Claim C2 (code bug evidence): on a results file whose joined story
chunks into two sentences, the narration endpoint performs exactly one
synthesis call and returns only the first chunk's audio — the loop bound is
the constant 1, not `textChunks.length`. With the byte model
`tts s = [s.length]`, the produced narration is `[2000]` while the
concatenation of per-chunk audio over all chunks in input order would be
`[2000, 2001]`. -/
theorem narration_first_chunk_only :
    (splitTextBySentence demoStoryLong 2000).length = 2 ∧
    chunkNarrationCompute demoResultsLong (fun s => [s.length]) =
      some ([2000], 1) ∧
    ((splitTextBySentence demoStoryLong 2000).map
        (fun s => [s.length])).flatten = [2000, 2001] ∧
    ([2000] : Bytes) ≠ [2000, 2001] := by
  refine ⟨?_, ?_, ?_, by decide⟩
  · rw [demoStory_chunks]
    rfl
  · simp only [chunkNarrationCompute]
    rw [demo_narrationStoryParts]
    rw [if_neg (by decide)]
    rw [show List.intercalate newline2 [bigPartA, bigPartB] = demoStoryLong
      from rfl]
    rw [demoStory_chunks]
    rw [show ([bigPartA, bigPartB].take 1) = [bigPartA] from rfl]
    rw [List.map_cons, List.map_nil, bigPartA_length]
    rfl
  · rw [demoStory_chunks, List.map_cons, List.map_cons, List.map_nil,
      bigPartA_length, bigPartB_length]
    rfl

/-- The per-job directory, as a map from file names to cached bytes. -/
def FileStore := String → Option Bytes

/-- Writing one file. -/
def fsUpdate (fs : FileStore) (name : String) (b : Bytes) : FileStore :=
  fun n => if n = name then some b else fs n

/-- Cache file of the chunk-path narration endpoint. -/
def narrationFileName : String := "narration.mp3"

/-- Cache file of the whole-story narration endpoint. -/
def narrationFinalFileName : String := "narration_final.mp3"

/-- Route `GET /api/job/:folderId/narration`: serve the cached artifact when it
exists; otherwise generate, persist, and serve. The result is the response
body, the directory afterwards, and the number of synthesis calls made. -/
def chunkNarrationGET (fs : FileStore) (results : List VisionEntry)
    (tts : Str → Bytes) : Option Bytes × FileStore × Nat :=
  match fs narrationFileName with
  | some b => (some b, fs, 0)
  | none =>
    match chunkNarrationCompute results tts with
    | none => (none, fs, 0)
    | some (buf, calls) =>
      (some buf, fsUpdate fs narrationFileName buf, calls)

/-- The generation step of `GET /api/job/:folderId/narration/final`: a 404
when the story is blank, otherwise one synthesis call over the whole text. -/
def finalNarrationCompute (story : Str) (tts : Str → Bytes) :
    Option (Bytes × Nat) :=
  if (jsTrim story).isEmpty then none else some (tts story, 1)

/-- Route `GET /api/job/:folderId/narration/final`: serve the cached artifact when
it exists; otherwise read `story.txt` (absent gives an error), generate,
persist and serve. -/
def finalNarrationGET (fs : FileStore) (story : Option Str)
    (tts : Str → Bytes) : Option Bytes × FileStore × Nat :=
  match fs narrationFinalFileName with
  | some b => (some b, fs, 0)
  | none =>
    match story with
    | none => (none, fs, 0)
    | some st =>
      match finalNarrationCompute st tts with
      | none => (none, fs, 0)
      | some (buf, calls) =>
        (some buf, fsUpdate fs narrationFinalFileName buf, calls)

/-- The chunk cache file holds the narration after a write. -/
theorem fsUpdate_same (fs : FileStore) (name : String) (b : Bytes) :
    fsUpdate fs name b name = some b := by
  unfold fsUpdate
  rw [if_pos rfl]

/-- Reading a different file is unaffected by a write. -/
theorem fsUpdate_other (fs : FileStore) (name other : String) (b : Bytes)
    (h : other ≠ name) : fsUpdate fs name b other = fs other := by
  unfold fsUpdate
  rw [if_neg h]

/-- Claim C9: each narration endpoint is idempotent — after a successful
call, repeating the request returns the same bytes from the cache with zero
synthesis calls and leaves the directory unchanged — and the two paths cache
under distinct per-job file names, each endpoint never reading or writing
the other's artifact. -/
theorem narration_cached_and_distinct :
    (∀ (fs : FileStore) (results : List VisionEntry) (tts : Str → Bytes)
        (b : Bytes) (g : FileStore) (k : Nat),
      chunkNarrationGET fs results tts = (some b, g, k) →
      chunkNarrationGET g results tts = (some b, g, 0)) ∧
    (∀ (fs : FileStore) (story : Option Str) (tts : Str → Bytes)
        (b : Bytes) (g : FileStore) (k : Nat),
      finalNarrationGET fs story tts = (some b, g, k) →
      finalNarrationGET g story tts = (some b, g, 0)) ∧
    narrationFileName ≠ narrationFinalFileName ∧
    (∀ (fs : FileStore) (results : List VisionEntry) (tts : Str → Bytes),
      (chunkNarrationGET fs results tts).2.1 narrationFinalFileName =
        fs narrationFinalFileName) ∧
    (∀ (fs : FileStore) (story : Option Str) (tts : Str → Bytes),
      (finalNarrationGET fs story tts).2.1 narrationFileName =
        fs narrationFileName) := by
  refine ⟨?_, ?_, by decide, ?_, ?_⟩
  · intro fs results tts b g k h
    unfold chunkNarrationGET at h ⊢
    cases h0 : fs narrationFileName with
    | some b0 =>
      rw [h0] at h
      dsimp only at h
      simp only [Prod.mk.injEq, Option.some.injEq] at h
      obtain ⟨hb, hg, _⟩ := h
      rw [← hg, h0, ← hb]
    | none =>
      rw [h0] at h
      dsimp only at h
      cases h1 : chunkNarrationCompute results tts with
      | none =>
        rw [h1] at h
        dsimp only at h
        simp at h
      | some p =>
        obtain ⟨buf, calls⟩ := p
        rw [h1] at h
        dsimp only at h
        simp only [Prod.mk.injEq, Option.some.injEq] at h
        obtain ⟨hb, hg, _⟩ := h
        rw [← hg, ← hb, fsUpdate_same]
  · intro fs story tts b g k h
    unfold finalNarrationGET at h ⊢
    cases h0 : fs narrationFinalFileName with
    | some b0 =>
      rw [h0] at h
      dsimp only at h
      simp only [Prod.mk.injEq, Option.some.injEq] at h
      obtain ⟨hb, hg, _⟩ := h
      rw [← hg, h0, ← hb]
    | none =>
      rw [h0] at h
      dsimp only at h
      cases story with
      | none =>
        dsimp only at h
        simp at h
      | some st =>
        dsimp only at h
        cases h1 : finalNarrationCompute st tts with
        | none =>
          rw [h1] at h
          dsimp only at h
          simp at h
        | some p =>
          obtain ⟨buf, calls⟩ := p
          rw [h1] at h
          dsimp only at h
          simp only [Prod.mk.injEq, Option.some.injEq] at h
          obtain ⟨hb, hg, _⟩ := h
          rw [← hg, ← hb, fsUpdate_same]
  · intro fs results tts
    unfold chunkNarrationGET
    cases h0 : fs narrationFileName with
    | some b0 => rfl
    | none =>
      dsimp only
      cases h1 : chunkNarrationCompute results tts with
      | none => rfl
      | some p =>
        obtain ⟨buf, calls⟩ := p
        dsimp only
        exact fsUpdate_other fs narrationFileName narrationFinalFileName buf
          (by decide)
  · intro fs story tts
    unfold finalNarrationGET
    cases h0 : fs narrationFinalFileName with
    | some b0 => rfl
    | none =>
      dsimp only
      cases story with
      | none => rfl
      | some st =>
        dsimp only
        cases h1 : finalNarrationCompute st tts with
        | none => rfl
        | some p =>
          obtain ⟨buf, calls⟩ := p
          dsimp only
          exact fsUpdate_other fs narrationFinalFileName narrationFileName buf
            (by decide)

/-- An empty job directory. -/
def emptyStore : FileStore := fun _ => none

/-- A one-scene results file with story part "hi.". -/
def demoResults : List VisionEntry := [⟨1, some ['h', 'i', '.'], none⟩]

/-- Byte model of synthesis: the length of the text. -/
def demoTts : Str → Bytes := fun s => [s.length]

/-- The directory after the first narration call of the witness. -/
def demoCachedStore : FileStore := fsUpdate emptyStore narrationFileName [3]

/-- Instantiation of the caching theorem: after a first chunk-narration call
on an empty directory produced and cached three bytes, a second call serves
the same bytes with zero synthesis calls. -/
theorem narration_cached_and_distinct_witness :
    chunkNarrationGET demoCachedStore demoResults demoTts =
      (some [3], demoCachedStore, 0) :=
  narration_cached_and_distinct.1 emptyStore demoResults demoTts [3]
    demoCachedStore 1 rfl
